import Mathlib

/-!
Shallow embedding of the geohash codec from `geohash.go`
(repository `quantonganh/geohash`), together with proofs about it.

Modelling conventions:
* Go `float64` arithmetic is idealised as exact rational arithmetic (`ℚ`);
  `math.Cos` forces `ℝ` for the bounding-box geometry.
* Go machine integers are modelled as `ℕ` with an explicit `% 2 ^ w`
  wherever the Go code can overflow or a narrowing conversion happens.
  Go's float-to-unsigned conversion for an out-of-range value is
  implementation-defined; we model the wrapping behaviour of the usual
  amd64 code generation (truncate to integer, then take the low bits).
* `strings.Split`, `strings.TrimSpace` and `strings.Index` are modelled
  on `List Char` (all relevant strings are ASCII, where byte positions
  and rune positions agree).
-/

namespace Geohash

/-- The base-32 alphabet of the codec (`alphabet` constant in geohash.go). -/
def alphabet : String := "0123456789bcdefghjkmnpqrstuvwxyz"

/-- Constant `minLat` from geohash.go. -/
def minLat : ℚ := -90

/-- Constant `maxLat` from geohash.go. -/
def maxLat : ℚ := 90

/-- Constant `minLong` from geohash.go. -/
def minLong : ℚ := -180

/-- Constant `maxLong` from geohash.go. -/
def maxLong : ℚ := 180

/-- Constant `mercatorMax = 20037.73` (km) from geohash.go. -/
def mercatorMax : ℚ := 2003773 / 100

/-- Constant `lenOfADegreeOfLat = 111.1` (km) from geohash.go. -/
def lenOfADegreeOfLat : ℚ := 1111 / 10

/-- Constant `lenOfADegreeOfLng = 111.320` (km) from geohash.go. -/
def lenOfADegreeOfLng : ℚ := 11132 / 100

/-- Constant `maxLength = 12` from geohash.go. -/
def maxLength : ℕ := 12

/-- `mapTo32Bits` from geohash.go: `uint32(math.Floor(1 << 32 * value))`.
The floor is exact rational floor; the narrowing conversion to `uint32`
is modelled by the wrapping `% 2 ^ 32` (implementation-defined in Go for
out-of-range values; amd64 wraps). -/
def mapTo32Bits (value : ℚ) : ℕ :=
  ((⌊(2 ^ 32 : ℚ) * value⌋ % ((2 : ℤ) ^ 32)).toNat)

/-- One iteration of the loop body of `interleave32Bits` in geohash.go:
`result |= (uint64(lat32) & (1 << i)) << i; result |= (uint64(lng32) & (1 << i)) << (i + 1)`.
No `% 2 ^ 64` is needed: every operand already fits in 64 bits. -/
def interStep (lat32 lng32 result i : ℕ) : ℕ :=
  (result ||| ((lat32 &&& (1 <<< i)) <<< i)) ||| ((lng32 &&& (1 <<< i)) <<< (i + 1))

/-- `interleave32Bits` from geohash.go: the loop `for i := 0; i < 32; i++`. -/
def interleave32Bits (lat32 lng32 : ℕ) : ℕ :=
  (List.range 32).foldl (interStep lat32 lng32) 0

/-- Indexing `alphabet[chunk]` from geohash.go. Go panics when out of
bounds; the default is never reached for a 64-bit key (proved below). -/
def alphabetChar (i : ℕ) : Char := alphabet.data.getD i ' '

/-- The characters produced by the loop of `uint64ToBase32` in geohash.go:
take the top five bits (`value >> (64 - 5)`), look them up in the
alphabet, then `value <<= 5` (a `uint64` shift, hence `% 2 ^ 64`). -/
def b32Chars : ℕ → ℕ → List Char
  | _, 0 => []
  | v, n + 1 => alphabetChar (v >>> 59) :: b32Chars ((v <<< 5) % 2 ^ 64) n

/-- `uint64ToBase32` from geohash.go: twelve loop iterations. -/
def uint64ToBase32 (value : ℕ) : String := String.mk (b32Chars value 12)

/-- The 64-bit interleaved key built inside `Encode` in geohash.go. -/
def encodeKey (lat lng : ℚ) : ℕ :=
  interleave32Bits (mapTo32Bits ((lat - minLat) / (maxLat - minLat)))
    (mapTo32Bits ((lng - minLong) / (maxLong - minLong)))

/-- `Encode` from geohash.go. -/
def Encode (lat lng : ℚ) : String := uint64ToBase32 (encodeKey lat lng)

/-- `strings.Index(alphabet, string(c))` as used in geohash.go: the index
of `c` in the alphabet, or `-1` when `c` does not occur (all alphabet
characters are one-byte ASCII, so byte index = character index). -/
def strIndex (c : Char) : ℤ :=
  if c ∈ alphabet.data then (alphabet.data.indexOf c : ℤ) else -1

/-- The loop of `ParseGeohash` in geohash.go, carrying the running index.
`some (c, i)` models returning the error for character `c` at index `i`;
`none` models returning `nil`. -/
def parseGeohashAux : List Char → ℕ → Option (Char × ℕ)
  | [], _ => none
  | c :: rest, i => if strIndex c = -1 then some (c, i) else parseGeohashAux rest (i + 1)

/-- `ParseGeohash` from geohash.go. -/
def ParseGeohash (hash : String) : Option (Char × ℕ) := parseGeohashAux hash.data 0

/-- The loop body of `Base32ToUint64` in geohash.go:
`result = (result << 5) | uint64(index)`. The `uint64` shift wraps
(`% 2 ^ 64`), and `uint64(index)` of the `int` index is `% 2 ^ 64`
(so `-1` becomes `2 ^ 64 - 1`). -/
def b32Step (result : ℕ) (c : Char) : ℕ :=
  ((result <<< 5) % 2 ^ 64) ||| ((strIndex c % ((2 : ℤ) ^ 64)).toNat)

/-- `Base32ToUint64` from geohash.go: fold over all characters, then
`result <<= (64 - 5*maxLength)`, i.e. a final wrapping shift by 4. -/
def Base32ToUint64 (hash : String) : ℕ :=
  ((hash.data.foldl b32Step 0) <<< 4) % 2 ^ 64

/-- One iteration of the loop body of `DeInterleave64Bits` in geohash.go:
`lat32 |= uint32((value>>(i*2))&1) << i; lng32 |= uint32((value>>(i*2+1))&1) << i`.
The masked bit is below 2, so the `uint32` conversion never truncates. -/
def deinterStep (value : ℕ) (p : ℕ × ℕ) (i : ℕ) : ℕ × ℕ :=
  (p.1 ||| (((value >>> (i * 2)) &&& 1) <<< i),
   p.2 ||| (((value >>> (i * 2 + 1)) &&& 1) <<< i))

/-- `DeInterleave64Bits` from geohash.go. -/
def DeInterleave64Bits (value : ℕ) : ℕ × ℕ :=
  (List.range 32).foldl (deinterStep value) (0, 0)

/-- `Decode` from geohash.go:
`lat := float64(lat32)/(1<<32)*(maxLat-minLat) + minLat` and likewise
for the longitude. -/
def Decode (hash : String) : ℚ × ℚ :=
  let p := DeInterleave64Bits (Base32ToUint64 hash)
  ((p.1 : ℚ) / 2 ^ 32 * (maxLat - minLat) + minLat,
   (p.2 : ℚ) / 2 ^ 32 * (maxLong - minLong) + minLong)

/-- `BoundingBox` from geohash.go (primary file, lines 157-168). Note the
order of the returned quadruple: `(minLat, minLng, maxLat, maxLng)`. -/
noncomputable def BoundingBox (lat lng r : ℝ) : ℝ × ℝ × ℝ × ℝ :=
  let deltaLat := r / (lenOfADegreeOfLat : ℝ)
  let kmInLongitudeDegree := (lenOfADegreeOfLng : ℝ) * Real.cos (lat / 180 * Real.pi)
  let deltaLng := r / kmInLongitudeDegree
  (lat - deltaLat, lng - deltaLng, lat + deltaLat, lng + deltaLng)

/-- `BoundingBox` from the bundled secondary variant of geohash.go
(lines 369-380), which returns `(minLat, maxLat, minLng, maxLng)`. -/
noncomputable def BoundingBoxVariant (lat lng r : ℝ) : ℝ × ℝ × ℝ × ℝ :=
  let deltaLat := r / (lenOfADegreeOfLat : ℝ)
  let kmInLongitudeDegree := (lenOfADegreeOfLng : ℝ) * Real.cos (lat / 180 * Real.pi)
  let deltaLng := r / kmInLongitudeDegree
  (lat - deltaLat, lat + deltaLat, lng - deltaLng, lng + deltaLng)

/-- The loop `for r < mercatorMax { r *= 2; p += 2 }` of
`EstimateLengthRequired` in geohash.go. The Go loop has no bound, so it
is embedded with explicit fuel: `none` means the fuel ran out while the
loop guard still held (with unbounded fuel: the loop does not stop). -/
def estimateLoop : ℕ → ℚ → ℕ → Option ℕ
  | 0, r, p => if r < mercatorMax then none else some p
  | fuel + 1, r, p => if r < mercatorMax then estimateLoop fuel (r * 2) (p + 2) else some p

/-- `EstimateLengthRequired` from geohash.go, fuel-indexed (see
`estimateLoop`): the `r == 0` special case, the doubling loop, then
`l := p / 5` clamped to `[1, maxLength]`. -/
def EstimateLengthRequired (fuel : ℕ) (r : ℚ) : Option ℕ :=
  if r = 0 then some maxLength
  else
    (estimateLoop fuel r 0).map fun p =>
      let l := p / 5
      let l := if l < 1 then 1 else l
      if l > maxLength then maxLength else l

/-- White-space test for the `strings.TrimSpace` model (the ASCII white
space characters; Go also trims other Unicode spaces, which never appear
in the inputs considered here). -/
def isSpaceChar (c : Char) : Bool :=
  c == ' ' || c == '\t' || c == '\n' || c == '\r'

/-- Model of `strings.TrimSpace` on character lists. -/
def trimSpace (l : List Char) : List Char :=
  ((l.dropWhile isSpaceChar).reverse.dropWhile isSpaceChar).reverse

/-- Model of `strings.Split(s, sep)` for a one-character separator, on
character lists (as used with `","` in `ParseCoordinate`). -/
def splitOnChar (sep : Char) : List Char → List (List Char)
  | [] => [[]]
  | c :: rest =>
    if c == sep then [] :: splitOnChar sep rest
    else
      match splitOnChar sep rest with
      | [] => [[c]]
      | p :: ps => (c :: p) :: ps

/-- The error outcomes of `ParseCoordinate` in geohash.go: the format
error for a wrong comma count, the two `strconv.ParseFloat` failures,
and the two range errors. -/
inductive CoordErr : Type
  | format : CoordErr
  | parseLat : CoordErr
  | parseLng : CoordErr
  | rangeLat : CoordErr
  | rangeLng : CoordErr
deriving DecidableEq

/-- `ParseCoordinate` from geohash.go, parameterised by the float parser
`pf` (Go calls `strconv.ParseFloat`, which is standard library code, not
part of this repository; `parseDecimal` below instantiates it). -/
def ParseCoordinate (pf : List Char → Option ℚ) (coords : String) :
    Except CoordErr (ℚ × ℚ) :=
  match splitOnChar ',' coords.data with
  | [latStr, longStr] =>
    match pf (trimSpace latStr) with
    | none => .error .parseLat
    | some lat =>
      match pf (trimSpace longStr) with
      | none => .error .parseLng
      | some lng =>
        if lat < minLat ∨ lat > maxLat then .error .rangeLat
        else if lng < minLong ∨ lng > maxLong then .error .rangeLng
        else .ok (lat, lng)
  | _ => .error .format

/-- Digit run to a natural number (base 10). -/
def digitsToNat (l : List Char) : ℕ :=
  l.foldl (fun a c => a * 10 + (c.toNat - 48)) 0

/-- Digit test on the ASCII codes. -/
def isDigitChar (c : Char) : Bool := 48 ≤ c.toNat && c.toNat ≤ 57

/-- Sign handling of the decimal-literal parser below. -/
def splitSign (s : List Char) : Bool × List Char :=
  match s with
  | '-' :: r => (true, r)
  | '+' :: r => (false, r)
  | r => (false, r)

/-- Modelled from the spec: `strconv.ParseFloat` (Go standard library,
missing from this repository's sources) restricted to the plain decimal
literals `[+-]digits[.digits]` that the spec's examples use ("parse each
as a double"). Returns the exact rational value of the literal. -/
def parseDecimal (s : List Char) : Option ℚ :=
  let core := splitSign s
  let sgn : ℚ := if core.1 then -1 else 1
  match splitOnChar '.' core.2 with
  | [ip] =>
    if ip ≠ [] ∧ ip.all isDigitChar then some (sgn * (digitsToNat ip : ℚ))
    else none
  | [ip, fp] =>
    if ip ≠ [] ∧ fp ≠ [] ∧ ip.all isDigitChar ∧ fp.all isDigitChar then
      some (sgn * ((digitsToNat ip : ℚ) + (digitsToNat fp : ℚ) / 10 ^ fp.length))
    else none
  | _ => none

/-- Rounding to four decimal places (round half up), used to state the
spec's "equal to four decimal places" test vector. -/
def round4 (q : ℚ) : ℚ := (⌊q * 10000 + 1 / 2⌋ : ℚ) / 10000

/-! ### Bit-level lemmas about interleaving -/

theorem range_foldl_succ {β : Type} (f : β → ℕ → β) (init : β) (n : ℕ) :
    (List.range (n + 1)).foldl f init = f ((List.range n).foldl f init) n := by
  rw [List.range_succ, List.foldl_append, List.foldl_cons, List.foldl_nil]

theorem testBit_maskShift (x m s k : ℕ) :
    ((x &&& (1 <<< m)) <<< s).testBit k = (decide (k = m + s) && x.testBit m) := by
  rw [Nat.testBit_shiftLeft, Nat.one_shiftLeft, Nat.testBit_land, Nat.testBit_two_pow]
  by_cases hs : s ≤ k
  · by_cases hm : k = m + s
    · subst hm
      simp [Nat.add_sub_cancel]
    · have h1 : m ≠ k - s := by omega
      simp [hs, h1, hm]
  · have h1 : k ≠ m + s := by omega
    have h2 : ¬ k ≥ s := hs
    simp [h2, h1]

theorem testBit_and1_shift (y s k : ℕ) :
    ((y &&& 1) <<< s).testBit k = (decide (k = s) && y.testBit 0) := by
  have h := testBit_maskShift y 0 s k
  rw [Nat.shiftLeft_zero] at h
  simpa using h

theorem interPartial_testBit (a b n k : ℕ) :
    (((List.range n).foldl (interStep a b) 0).testBit k) =
      (decide (k < 2 * n) && (if k % 2 = 0 then a.testBit (k / 2) else b.testBit (k / 2))) := by
  induction n with
  | zero => simp [Nat.zero_testBit]
  | succ n ih =>
    rw [range_foldl_succ, interStep, Nat.testBit_lor, Nat.testBit_lor, ih,
        testBit_maskShift, testBit_maskShift]
    by_cases h1 : k < 2 * n
    · have h2 : k ≠ n + n := by omega
      have h3 : k ≠ n + (n + 1) := by omega
      have h4 : k < 2 * (n + 1) := by omega
      simp [h1, h2, h3, h4]
    · by_cases h2 : k = n + n
      · subst h2
        have h5 : (n + n) % 2 = 0 := by omega
        have hd : (n + n) / 2 = n := by omega
        have h3 : ¬ (n + n = n + (n + 1)) := by omega
        have h4 : n + n < 2 * (n + 1) := by omega
        have h6 : ¬ (n + n < 2 * n) := by omega
        simp [h3, h4, h5, hd, h6]
      · by_cases h3 : k = n + (n + 1)
        · subst h3
          have h5 : (n + (n + 1)) % 2 = 1 := by omega
          have hd : (n + (n + 1)) / 2 = n := by omega
          have h4 : n + (n + 1) < 2 * (n + 1) := by omega
          have h6 : ¬ (n + (n + 1) < 2 * n) := by omega
          have h7 : ¬ (n + (n + 1) = n + n) := by omega
          simp [h4, h5, hd, h6, h7]
        · have h4 : ¬ k < 2 * (n + 1) := by omega
          simp [h1, h2, h3, h4]

theorem interleave32Bits_testBit (a b k : ℕ) :
    (interleave32Bits a b).testBit k =
      (decide (k < 64) && (if k % 2 = 0 then a.testBit (k / 2) else b.testBit (k / 2))) := by
  have h := interPartial_testBit a b 32 k
  norm_num at h
  exact h

theorem deinterPartial_fst_testBit (v n k : ℕ) :
    (((List.range n).foldl (deinterStep v) (0, 0)).1).testBit k =
      (decide (k < n) && v.testBit (2 * k)) := by
  induction n with
  | zero => simp [Nat.zero_testBit]
  | succ n ih =>
    rw [range_foldl_succ, deinterStep]
    show ((((List.range n).foldl (deinterStep v) (0, 0)).1 ||| _)).testBit k = _
    rw [Nat.testBit_lor, ih, testBit_and1_shift, Nat.testBit_shiftRight]
    by_cases h1 : k < n
    · have h2 : k ≠ n := by omega
      have h3 : k < n + 1 := by omega
      simp [h1, h2, h3]
    · by_cases h2 : k = n
      · subst h2
        have h3 : k < k + 1 := by omega
        have h4 : k * 2 + 0 = 2 * k := by ring
        simp [h1, h3, h4]
      · have h3 : ¬ k < n + 1 := by omega
        simp [h1, h2, h3]

theorem deinterPartial_snd_testBit (v n k : ℕ) :
    (((List.range n).foldl (deinterStep v) (0, 0)).2).testBit k =
      (decide (k < n) && v.testBit (2 * k + 1)) := by
  induction n with
  | zero => simp [Nat.zero_testBit]
  | succ n ih =>
    rw [range_foldl_succ, deinterStep]
    show ((((List.range n).foldl (deinterStep v) (0, 0)).2 ||| _)).testBit k = _
    rw [Nat.testBit_lor, ih, testBit_and1_shift, Nat.testBit_shiftRight]
    by_cases h1 : k < n
    · have h2 : k ≠ n := by omega
      have h3 : k < n + 1 := by omega
      simp [h1, h2, h3]
    · by_cases h2 : k = n
      · subst h2
        have h3 : k < k + 1 := by omega
        have h4 : k * 2 + 1 + 0 = 2 * k + 1 := by ring
        simp [h1, h3, h4]
      · have h3 : ¬ k < n + 1 := by omega
        simp [h1, h2, h3]

theorem DeInterleave64Bits_fst_testBit (v k : ℕ) :
    ((DeInterleave64Bits v).1).testBit k = (decide (k < 32) && v.testBit (2 * k)) :=
  deinterPartial_fst_testBit v 32 k

theorem DeInterleave64Bits_snd_testBit (v k : ℕ) :
    ((DeInterleave64Bits v).2).testBit k = (decide (k < 32) && v.testBit (2 * k + 1)) :=
  deinterPartial_snd_testBit v 32 k

theorem interPartial_lt (a b n : ℕ) :
    (List.range n).foldl (interStep a b) 0 < 2 ^ (2 * n) := by
  induction n with
  | zero => simp
  | succ n ih =>
    rw [range_foldl_succ, interStep]
    have hmul : 2 * (n + 1) = 2 * n + 2 := by ring
    rw [hmul]
    have hA : (a &&& (1 <<< n)) <<< n < 2 ^ (2 * n + 2) := by
      rw [Nat.shiftLeft_eq, Nat.one_shiftLeft]
      calc (a &&& 2 ^ n) * 2 ^ n ≤ 2 ^ n * 2 ^ n :=
            Nat.mul_le_mul_right _ Nat.and_le_right
        _ = 2 ^ (2 * n) := by rw [← pow_add]; ring_nf
        _ < 2 ^ (2 * n + 2) := Nat.pow_lt_pow_right (by norm_num) (by omega)
    have hB : (b &&& (1 <<< n)) <<< (n + 1) < 2 ^ (2 * n + 2) := by
      rw [Nat.shiftLeft_eq, Nat.one_shiftLeft]
      calc (b &&& 2 ^ n) * 2 ^ (n + 1) ≤ 2 ^ n * 2 ^ (n + 1) :=
            Nat.mul_le_mul_right _ Nat.and_le_right
        _ = 2 ^ (2 * n + 1) := by rw [← pow_add]; ring_nf
        _ < 2 ^ (2 * n + 2) := Nat.pow_lt_pow_right (by norm_num) (by omega)
    have hP : (List.range n).foldl (interStep a b) 0 < 2 ^ (2 * n + 2) :=
      lt_of_lt_of_le ih (Nat.pow_le_pow_right (by norm_num) (by omega))
    exact Nat.or_lt_two_pow (Nat.or_lt_two_pow hP hA) hB

theorem interleave32Bits_lt (a b : ℕ) : interleave32Bits a b < 2 ^ 64 := by
  have h := interPartial_lt a b 32
  rw [interleave32Bits]
  exact lt_of_lt_of_le h (by norm_num)

theorem deinterPartial_lt (v n : ℕ) :
    ((List.range n).foldl (deinterStep v) (0, 0)).1 < 2 ^ n ∧
      ((List.range n).foldl (deinterStep v) (0, 0)).2 < 2 ^ n := by
  induction n with
  | zero => simp
  | succ n ih =>
    rw [range_foldl_succ, deinterStep]
    have hterm : ∀ y : ℕ, (y &&& 1) <<< n < 2 ^ (n + 1) := by
      intro y
      rw [Nat.shiftLeft_eq]
      calc (y &&& 1) * 2 ^ n ≤ 1 * 2 ^ n := Nat.mul_le_mul_right _ Nat.and_le_right
        _ = 2 ^ n := by ring
        _ < 2 ^ (n + 1) := Nat.pow_lt_pow_right (by norm_num) (by omega)
    have h1 : ((List.range n).foldl (deinterStep v) (0, 0)).1 < 2 ^ (n + 1) :=
      lt_of_lt_of_le ih.1 (Nat.pow_le_pow_right (by norm_num) (by omega))
    have h2 : ((List.range n).foldl (deinterStep v) (0, 0)).2 < 2 ^ (n + 1) :=
      lt_of_lt_of_le ih.2 (Nat.pow_le_pow_right (by norm_num) (by omega))
    exact ⟨Nat.or_lt_two_pow h1 (hterm _), Nat.or_lt_two_pow h2 (hterm _)⟩

theorem DeInterleave64Bits_fst_lt (v : ℕ) : (DeInterleave64Bits v).1 < 2 ^ 32 :=
  (deinterPartial_lt v 32).1

theorem DeInterleave64Bits_snd_lt (v : ℕ) : (DeInterleave64Bits v).2 < 2 ^ 32 :=
  (deinterPartial_lt v 32).2

theorem testBit_high_false {x n k : ℕ} (hx : x < 2 ^ n) (hk : n ≤ k) :
    x.testBit k = false :=
  Nat.testBit_lt_two_pow (lt_of_lt_of_le hx (Nat.pow_le_pow_right (by norm_num) hk))

/-- C2: for 32-bit inputs, `interleave32Bits` puts latitude bit `i` at
output bit `2*i` and longitude bit `i` at output bit `2*i + 1`, and
`DeInterleave64Bits` recovers the pair exactly. -/
theorem c2_interleave_deinterleave_inverse (a b : ℕ) (ha : a < 2 ^ 32) (hb : b < 2 ^ 32) :
    (∀ i, i < 32 →
      (interleave32Bits a b).testBit (2 * i) = a.testBit i ∧
      (interleave32Bits a b).testBit (2 * i + 1) = b.testBit i) ∧
    DeInterleave64Bits (interleave32Bits a b) = (a, b) := by
  constructor
  · intro i hi
    rw [interleave32Bits_testBit, interleave32Bits_testBit]
    constructor
    · have h1 : 2 * i < 64 := by omega
      have h2 : (2 * i) % 2 = 0 := by omega
      have h3 : 2 * i / 2 = i := by omega
      simp [h1, h2, h3]
    · have h1 : 2 * i + 1 < 64 := by omega
      have h2 : (2 * i + 1) % 2 = 1 := by omega
      have h3 : (2 * i + 1) / 2 = i := by omega
      simp [h1, h2, h3]
  · apply Prod.ext
    · apply Nat.eq_of_testBit_eq
      intro k
      rw [DeInterleave64Bits_fst_testBit, interleave32Bits_testBit]
      by_cases hk : k < 32
      · have h1 : 2 * k < 64 := by omega
        have h2 : (2 * k) % 2 = 0 := by omega
        have h3 : 2 * k / 2 = k := by omega
        simp [hk, h1, h2, h3]
      · have hbit : a.testBit k = false := testBit_high_false ha (by omega)
        simp [hk, hbit]
    · apply Nat.eq_of_testBit_eq
      intro k
      rw [DeInterleave64Bits_snd_testBit, interleave32Bits_testBit]
      by_cases hk : k < 32
      · have h1 : 2 * k + 1 < 64 := by omega
        have h2 : (2 * k + 1) % 2 = 1 := by omega
        have h3 : (2 * k + 1) / 2 = k := by omega
        simp [hk, h1, h2, h3]
      · have hbit : b.testBit k = false := testBit_high_false hb (by omega)
        simp [hk, hbit]

/-- C2 witness: the inverse property at the concrete pair (5, 9). -/
theorem c2_interleave_deinterleave_inverse_witness :
    (5 : ℕ) < 2 ^ 32 ∧ (9 : ℕ) < 2 ^ 32 ∧
      DeInterleave64Bits (interleave32Bits 5 9) = (5, 9) :=
  ⟨by norm_num, by norm_num,
    (c2_interleave_deinterleave_inverse 5 9 (by norm_num) (by norm_num)).2⟩

/-! ### Base-32 string round trip: the string keeps exactly the top 60 bits -/

theorem lor_shiftLeft_eq_add (a k b : ℕ) (h : b < 2 ^ k) :
    ((a <<< k) ||| b) = a * 2 ^ k + b := by
  apply Nat.eq_of_testBit_eq
  intro j
  rw [Nat.testBit_lor, Nat.testBit_shiftLeft,
    show a * 2 ^ k + b = 2 ^ k * a + b from by ring,
    Nat.testBit_mul_pow_two_add a h j]
  by_cases hj : j < k
  · have h2 : ¬ j ≥ k := by omega
    simp [hj, h2]
  · have h2 : j ≥ k := by omega
    have hb : b.testBit j = false := testBit_high_false h (by omega)
    simp [hj, h2, hb]

set_option maxRecDepth 8000 in
theorem strIndex_alphabetChar (k : ℕ) (hk : k < 32) :
    (strIndex (alphabetChar k) % ((2 : ℤ) ^ 64)).toNat = k := by
  have h : ∀ k, k < 32 → (strIndex (alphabetChar k) % ((2 : ℤ) ^ 64)).toNat = k := by decide
  exact h k hk

theorem shiftRight59_lt (v : ℕ) (hv : v < 2 ^ 64) : v >>> 59 < 32 := by
  rw [Nat.shiftRight_eq_div_pow]
  exact (Nat.div_lt_iff_lt_mul (by norm_num)).2 (by norm_num at hv ⊢; omega)

theorem div_pow_split (v t m : ℕ) :
    v / 2 ^ t = 2 ^ m * (v / 2 ^ (t + m)) + (v % 2 ^ (t + m)) / 2 ^ t := by
  conv_lhs => rw [← Nat.div_add_mod v (2 ^ (t + m))]
  rw [pow_add]
  rw [show 2 ^ t * 2 ^ m * (v / (2 ^ t * 2 ^ m)) + v % (2 ^ t * 2 ^ m) =
        v % (2 ^ t * 2 ^ m) + 2 ^ t * (2 ^ m * (v / (2 ^ t * 2 ^ m))) from by ring]
  rw [Nat.add_mul_div_left _ _ (pow_pos (by norm_num : (0:ℕ) < 2) t)]
  exact Nat.add_comm _ _

theorem foldl_b32Chars (n : ℕ) :
    ∀ v r : ℕ, v < 2 ^ 64 → 5 * n ≤ 60 → r < 2 ^ (64 - 5 * n) →
      (b32Chars v n).foldl b32Step r = r * 2 ^ (5 * n) + v / 2 ^ (64 - 5 * n) := by
  induction n with
  | zero =>
    intro v r hv _ _
    have h1 : v / 18446744073709551616 = 0 :=
      Nat.div_eq_of_lt (by norm_num at hv ⊢; exact hv)
    simp [b32Chars, h1]
  | succ n ih =>
    intro v r hv hn hr
    rw [b32Chars, List.foldl_cons]
    have hchunk : v >>> 59 < 32 := shiftRight59_lt v hv
    have hstep : b32Step r (alphabetChar (v >>> 59)) = r * 2 ^ 5 + v >>> 59 := by
      rw [b32Step, strIndex_alphabetChar _ hchunk]
      have hr5 : (r <<< 5) % 2 ^ 64 = r <<< 5 := by
        apply Nat.mod_eq_of_lt
        rw [Nat.shiftLeft_eq]
        calc r * 2 ^ 5 < 2 ^ (64 - 5 * (n + 1)) * 2 ^ 5 :=
              (Nat.mul_lt_mul_right (by norm_num)).mpr hr
          _ ≤ 2 ^ 64 := by
              rw [← pow_add]
              exact Nat.pow_le_pow_right (by norm_num) (by omega)
      rw [hr5, lor_shiftLeft_eq_add r 5 _ (by norm_num at hchunk ⊢; omega)]
    rw [hstep]
    have hv' : (v <<< 5) % 2 ^ 64 < 2 ^ 64 := Nat.mod_lt _ (by norm_num)
    have hr' : r * 2 ^ 5 + v >>> 59 < 2 ^ (64 - 5 * n) := by
      have h3 : 2 ^ (64 - 5 * (n + 1)) * 2 ^ 5 = 2 ^ (64 - 5 * n) := by
        rw [← pow_add]
        congr 1
        omega
      have h4 := Nat.mul_le_mul_right (2 ^ 5) (Nat.le_sub_one_of_lt hr)
      have h5 : (1:ℕ) ≤ 2 ^ (64 - 5 * (n + 1)) := Nat.one_le_two_pow
      have h6 : v >>> 59 < 32 := hchunk
      rw [← h3]
      have h7 : (2 ^ (64 - 5 * (n + 1)) - 1) * 2 ^ 5 + 32 = 2 ^ (64 - 5 * (n + 1)) * 2 ^ 5 := by
        rw [Nat.sub_mul]
        norm_num
        omega
      omega
    rw [ih _ _ hv' (by omega) hr']
    have e1 : 64 - 5 * (n + 1) = 59 - 5 * n := by omega
    have e2 : 64 - 5 * n = 5 + (59 - 5 * n) := by omega
    have hmod : (v <<< 5) % 2 ^ 64 = 2 ^ 5 * (v % 2 ^ 59) := by
      rw [Nat.shiftLeft_eq,
        show v * 2 ^ 5 = 2 ^ 5 * v from by ring,
        show (2:ℕ) ^ 64 = 2 ^ 5 * 2 ^ 59 from by norm_num]
      exact Nat.mul_mod_mul_left _ _ _
    rw [hmod, e1, e2, pow_add]
    rw [Nat.mul_div_mul_left _ _ (by norm_num : (0:ℕ) < 2 ^ 5)]
    have hsplit := div_pow_split v (59 - 5 * n) (5 * n)
    rw [show 59 - 5 * n + 5 * n = 59 from by omega] at hsplit
    rw [hsplit, Nat.shiftRight_eq_div_pow]
    generalize v / 2 ^ 59 = q
    generalize (v % 2 ^ 59) / 2 ^ (59 - 5 * n) = w
    ring

theorem base32_of_uint64 (v : ℕ) (hv : v < 2 ^ 64) :
    Base32ToUint64 (uint64ToBase32 v) = v / 16 * 16 := by
  have hfold : (b32Chars v 12).foldl b32Step 0 = v / 16 := by
    rw [foldl_b32Chars 12 v 0 hv (by norm_num) (by norm_num)]
    norm_num
  show (((b32Chars v 12).foldl b32Step 0) <<< 4) % 2 ^ 64 = v / 16 * 16
  rw [hfold, Nat.shiftLeft_eq, show (2:ℕ) ^ 4 = 16 from by norm_num]
  exact Nat.mod_eq_of_lt (lt_of_le_of_lt (Nat.div_mul_le_self v 16) hv)

/-! ### What decode-of-encode computes -/

theorem div_pow_mul_pow_testBit (x t k : ℕ) :
    (x / 2 ^ t * 2 ^ t).testBit k = (decide (t ≤ k) && x.testBit k) := by
  rw [show x / 2 ^ t * 2 ^ t = (x >>> t) <<< t from by
        rw [Nat.shiftRight_eq_div_pow, Nat.shiftLeft_eq],
    Nat.testBit_shiftLeft, Nat.testBit_shiftRight]
  by_cases h : t ≤ k
  · have h2 : t + (k - t) = k := by omega
    simp [h, h2, ge_iff_le]
  · simp [h, ge_iff_le]

theorem deinter_trunc (a b : ℕ) (ha : a < 2 ^ 32) (hb : b < 2 ^ 32) :
    DeInterleave64Bits (interleave32Bits a b / 16 * 16) = (a / 4 * 4, b / 4 * 4) := by
  have e16 : (16 : ℕ) = 2 ^ 4 := by norm_num
  have e4 : (4 : ℕ) = 2 ^ 2 := by norm_num
  apply Prod.ext
  · apply Nat.eq_of_testBit_eq
    intro k
    rw [DeInterleave64Bits_fst_testBit]
    rw [show interleave32Bits a b / 16 * 16 =
          interleave32Bits a b / 2 ^ 4 * 2 ^ 4 from by rw [← e16]]
    rw [show a / 4 * 4 = a / 2 ^ 2 * 2 ^ 2 from by rw [← e4]]
    rw [div_pow_mul_pow_testBit, div_pow_mul_pow_testBit, interleave32Bits_testBit]
    by_cases h1 : k < 2
    · have h2 : ¬ 4 ≤ 2 * k := by omega
      have h3 : ¬ 2 ≤ k := by omega
      simp [h2, h3]
    · by_cases h4 : k < 32
      · have h2 : 4 ≤ 2 * k := by omega
        have h3 : 2 ≤ k := by omega
        have h5 : 2 * k < 64 := by omega
        have h6 : (2 * k) % 2 = 0 := by omega
        have h7 : 2 * k / 2 = k := by omega
        simp [h2, h3, h4, h5, h6, h7]
      · have hbit : a.testBit k = false := testBit_high_false ha (by omega)
        simp [h4, hbit]
  · apply Nat.eq_of_testBit_eq
    intro k
    rw [DeInterleave64Bits_snd_testBit]
    rw [show interleave32Bits a b / 16 * 16 =
          interleave32Bits a b / 2 ^ 4 * 2 ^ 4 from by rw [← e16]]
    rw [show b / 4 * 4 = b / 2 ^ 2 * 2 ^ 2 from by rw [← e4]]
    rw [div_pow_mul_pow_testBit, div_pow_mul_pow_testBit, interleave32Bits_testBit]
    by_cases h1 : k < 2
    · have h2 : ¬ 4 ≤ 2 * k + 1 := by omega
      have h3 : ¬ 2 ≤ k := by omega
      simp [h2, h3]
    · by_cases h4 : k < 32
      · have h2 : 4 ≤ 2 * k + 1 := by omega
        have h3 : 2 ≤ k := by omega
        have h5 : 2 * k + 1 < 64 := by omega
        have h6 : (2 * k + 1) % 2 = 1 := by omega
        have h7 : (2 * k + 1) / 2 = k := by omega
        simp [h2, h3, h4, h5, h6, h7]
      · have hbit : b.testBit k = false := testBit_high_false hb (by omega)
        simp [h4, hbit]

theorem mapTo32Bits_lt (v : ℚ) : mapTo32Bits v < 2 ^ 32 := by
  rw [mapTo32Bits]
  have h1 : (0:ℤ) ≤ ⌊(2 ^ 32 : ℚ) * v⌋ % ((2:ℤ) ^ 32) :=
    Int.emod_nonneg _ (by norm_num)
  have h2 : ⌊(2 ^ 32 : ℚ) * v⌋ % ((2:ℤ) ^ 32) < (2:ℤ) ^ 32 :=
    Int.emod_lt_of_pos _ (by norm_num)
  have e1 : ((2:ℤ) ^ 32) = 4294967296 := by norm_num
  have e2 : ((2:ℕ) ^ 32) = 4294967296 := by norm_num
  rw [e1] at h1 h2
  rw [e2]
  omega

/-- Decoding an encoded pair recovers the two 32-bit fractions with
their two lowest bits cleared (the base-32 string only keeps the top 60
of the 64 interleaved bits). -/
theorem decode_encode_eq (lat lng : ℚ) :
    Decode (Encode lat lng) =
      (((mapTo32Bits ((lat - minLat) / (maxLat - minLat)) / 4 * 4 : ℕ) : ℚ) / 2 ^ 32 *
          (maxLat - minLat) + minLat,
       ((mapTo32Bits ((lng - minLong) / (maxLong - minLong)) / 4 * 4 : ℕ) : ℚ) / 2 ^ 32 *
          (maxLong - minLong) + minLong) := by
  simp only [Decode, Encode, encodeKey]
  rw [base32_of_uint64 _ (interleave32Bits_lt _ _),
    deinter_trunc _ _ (mapTo32Bits_lt _) (mapTo32Bits_lt _)]

/-! ### Quantization bounds -/

theorem mapTo32Bits_floor_bounds (v : ℚ) (h0 : 0 ≤ v) (h1 : v < 1) :
    (mapTo32Bits v : ℚ) ≤ 2 ^ 32 * v ∧ 2 ^ 32 * v < (mapTo32Bits v : ℚ) + 1 := by
  rw [mapTo32Bits]
  have hz0 : (0:ℤ) ≤ ⌊(2 ^ 32 : ℚ) * v⌋ := Int.floor_nonneg.2 (by positivity)
  have hz1 : ⌊(2 ^ 32 : ℚ) * v⌋ < 2 ^ 32 := by
    rw [Int.floor_lt]
    push_cast
    nlinarith
  rw [Int.emod_eq_of_lt hz0 hz1]
  have hcast : ((⌊(2 ^ 32 : ℚ) * v⌋.toNat : ℕ) : ℚ) = ((⌊(2 ^ 32 : ℚ) * v⌋ : ℤ) : ℚ) := by
    have h := Int.toNat_of_nonneg hz0
    exact_mod_cast congrArg (fun z : ℤ => (z : ℚ)) h
  rw [hcast]
  exact ⟨Int.floor_le _, Int.lt_floor_add_one _⟩

theorem axis_bound (val mn mx : ℚ) (c : ℕ) (hmn : mn < mx) (h0 : mn ≤ val)
    (h1 : val < mx) (hc : c = mapTo32Bits ((val - mn) / (mx - mn)) / 4 * 4) :
    0 ≤ val - ((c : ℚ) / 2 ^ 32 * (mx - mn) + mn) ∧
      val - ((c : ℚ) / 2 ^ 32 * (mx - mn) + mn) ≤ (mx - mn) / 2 ^ 30 := by
  have hR : (0:ℚ) < mx - mn := sub_pos.2 hmn
  set v := (val - mn) / (mx - mn) with hv
  have hv0 : 0 ≤ v := div_nonneg (by linarith) (le_of_lt hR)
  have hv1 : v < 1 := (div_lt_one hR).2 (by linarith)
  obtain ⟨hf1, hf2⟩ := mapTo32Bits_floor_bounds v hv0 hv1
  set a := mapTo32Bits v with ha
  have hca : c ≤ a ∧ a ≤ c + 3 := by
    constructor <;> (rw [hc]; omega)
  have hcast : (c:ℚ) ≤ (a:ℚ) ∧ (a:ℚ) ≤ (c:ℚ) + 3 := by
    constructor <;> exact_mod_cast (by omega : _ )
  have hval : val = v * (mx - mn) + mn := by
    rw [hv]
    field_simp
  constructor
  · have h2 : (c:ℚ) / 2 ^ 32 ≤ v := by
      rw [div_le_iff₀ (by positivity : (0:ℚ) < 2 ^ 32)]
      nlinarith [hcast.1, hf1]
    have h7 : 0 ≤ (v - (c:ℚ) / 2 ^ 32) * (mx - mn) :=
      mul_nonneg (by linarith) (le_of_lt hR)
    calc (0:ℚ) ≤ (v - (c:ℚ) / 2 ^ 32) * (mx - mn) := h7
      _ = val - ((c:ℚ) / 2 ^ 32 * (mx - mn) + mn) := by rw [hval]; ring
  · have h3 : v * 2 ^ 32 < (c:ℚ) + 4 := by nlinarith [hcast.2, hf2]
    have h4 : v - (c:ℚ) / 2 ^ 32 ≤ 1 / 2 ^ 30 := by
      rw [sub_le_iff_le_add,
        show (1:ℚ) / 2 ^ 30 + (c:ℚ) / 2 ^ 32 = ((c:ℚ) + 4) / 2 ^ 32 from by ring,
        le_div_iff₀ (by positivity : (0:ℚ) < 2 ^ 32)]
      linarith
    have h6 : (v - (c:ℚ) / 2 ^ 32) * (mx - mn) ≤ 1 / 2 ^ 30 * (mx - mn) :=
      mul_le_mul_of_nonneg_right h4 (le_of_lt hR)
    calc val - ((c:ℚ) / 2 ^ 32 * (mx - mn) + mn)
        = (v - (c:ℚ) / 2 ^ 32) * (mx - mn) := by rw [hval]; ring
      _ ≤ 1 / 2 ^ 30 * (mx - mn) := h6
      _ = (mx - mn) / 2 ^ 30 := by ring

/-- C1 (amended): for latitudes in `[-90, 90)` and longitudes in
`[-180, 180)`, decode-of-encode is within `180/2^30` resp. `360/2^30`
of the original on each axis — four times the claimed `range/2^32`
bound, because the 12-character string drops the lowest two bits of
each 32-bit fraction. -/
theorem c1_roundtrip_bound (lat lng : ℚ) (h1 : -90 ≤ lat) (h2 : lat < 90)
    (h3 : -180 ≤ lng) (h4 : lng < 180) :
    |lat - (Decode (Encode lat lng)).1| ≤ 180 / 2 ^ 30 ∧
      |lng - (Decode (Encode lat lng)).2| ≤ 360 / 2 ^ 30 := by
  rw [decode_encode_eq]
  constructor
  · have hb := axis_bound lat minLat maxLat
      (mapTo32Bits ((lat - minLat) / (maxLat - minLat)) / 4 * 4)
      (by simp only [minLat, maxLat]; norm_num)
      (by simp only [minLat]; exact h1)
      (by simp only [maxLat]; exact h2) rfl
    rw [abs_of_nonneg hb.1]
    refine le_trans hb.2 ?_
    simp only [minLat, maxLat]
    norm_num
  · have hb := axis_bound lng minLong maxLong
      (mapTo32Bits ((lng - minLong) / (maxLong - minLong)) / 4 * 4)
      (by simp only [minLong, maxLong]; norm_num)
      (by simp only [minLong]; exact h3)
      (by simp only [maxLong]; exact h4) rfl
    rw [abs_of_nonneg hb.1]
    refine le_trans hb.2 ?_
    simp only [minLong, maxLong]
    norm_num

/-- C1 witness: the round-trip bound applied at the origin. -/
theorem c1_roundtrip_bound_witness :
    ((-90 : ℚ) ≤ 0 ∧ (0 : ℚ) < 90 ∧ (-180 : ℚ) ≤ 0 ∧ (0 : ℚ) < 180) ∧
      |(0 : ℚ) - (Decode (Encode 0 0)).1| ≤ 180 / 2 ^ 30 ∧
      |(0 : ℚ) - (Decode (Encode 0 0)).2| ≤ 360 / 2 ^ 30 :=
  ⟨⟨by norm_num, by norm_num, by norm_num, by norm_num⟩,
    c1_roundtrip_bound 0 0 (by norm_num) (by norm_num) (by norm_num) (by norm_num)⟩

/-- C1 counterexample: at the valid coordinate
`lat = -90 + 630/2^32` (longitude `-180`) the decoded latitude is `-90`,
an error of `630/2^32`, which exceeds the claimed `180/2^32` bound; and
at the valid corner `(90, 180)` the 32-bit fractions wrap to `0`, so the
decoded pair is `(-90, -180)`, an error of the full range. -/
theorem c1_claim_false :
    ((-90 : ℚ) ≤ -90 + 630 / 2 ^ 32 ∧ (-90 + 630 / 2 ^ 32 : ℚ) ≤ 90) ∧
      (Decode (Encode (-90 + 630 / 2 ^ 32) (-180))).1 = -90 ∧
      ¬ |(-90 + 630 / 2 ^ 32 : ℚ) - (Decode (Encode (-90 + 630 / 2 ^ 32) (-180))).1| ≤
          180 / 2 ^ 32 ∧
      Decode (Encode 90 180) = (-90, -180) := by
  have hm1 : mapTo32Bits (((-90 + 630 / 2 ^ 32 : ℚ) - minLat) / (maxLat - minLat)) = 3 := by
    rw [mapTo32Bits]
    simp only [minLat, maxLat]
    norm_num
    rfl
  have hm2 : mapTo32Bits (((-180 : ℚ) - minLong) / (maxLong - minLong)) = 0 := by
    rw [mapTo32Bits]
    simp only [minLong, maxLong]
    norm_num
  have hm3 : mapTo32Bits (((90 : ℚ) - minLat) / (maxLat - minLat)) = 0 := by
    rw [mapTo32Bits]
    simp only [minLat, maxLat]
    norm_num
  have hm4 : mapTo32Bits (((180 : ℚ) - minLong) / (maxLong - minLong)) = 0 := by
    rw [mapTo32Bits]
    simp only [minLong, maxLong]
    norm_num
  refine ⟨⟨by norm_num, by norm_num⟩, ?_, ?_, ?_⟩
  · rw [decode_encode_eq, hm1]
    simp only [minLat, maxLat]
    norm_num
  · rw [decode_encode_eq, hm1]
    simp only [minLat, maxLat]
    norm_num [abs_le]
  · rw [decode_encode_eq, hm3, hm4]
    simp only [minLat, maxLat, minLong, maxLong]
    norm_num

set_option maxRecDepth 100000 in
/-- C3 counterexample: at the spec's own test vector
`(21.0278, 105.8342)` — a valid coordinate pair — the 64-bit interleaved
key built inside `Encode` has low 4 bits equal to `5`, not `0`. -/
theorem c3_claim_false :
    ((-90 : ℚ) ≤ 210278 / 10000 ∧ (210278 / 10000 : ℚ) ≤ 90 ∧
      (-180 : ℚ) ≤ 1058342 / 10000 ∧ (1058342 / 10000 : ℚ) ≤ 180) ∧
      encodeKey (210278 / 10000) (1058342 / 10000) % 16 = 5 := by
  have hm1 : mapTo32Bits (((210278 / 10000 : ℚ) - minLat) / (maxLat - minLat)) =
      2649226499 := by
    rw [mapTo32Bits]
    simp only [minLat, maxLat]
    norm_num
    rfl
  have hm2 : mapTo32Bits (((1058342 / 10000 : ℚ) - minLong) / (maxLong - minLong)) =
      3410134836 := by
    rw [mapTo32Bits]
    simp only [minLong, maxLong]
    norm_num
    rfl
  refine ⟨⟨by norm_num, by norm_num, by norm_num, by norm_num⟩, ?_⟩
  rw [encodeKey, hm1, hm2]
  decide

/-- C3 (amended): the low 4 bits of the interleaved key are in general
nonzero (they carry the two lowest bits of each 32-bit fraction), and
the 12-character conversion keeps exactly the top 60 bits: converting a
key to its string and back recovers the key with its low 4 bits cleared. -/
theorem c3_string_keeps_top60 (v : ℕ) (hv : v < 2 ^ 64) :
    Base32ToUint64 (uint64ToBase32 v) = v / 16 * 16 :=
  base32_of_uint64 v hv

/-- C3 witness: the top-60-bits round trip at the key 21. -/
theorem c3_string_keeps_top60_witness :
    (21 : ℕ) < 2 ^ 64 ∧ Base32ToUint64 (uint64ToBase32 21) = 21 / 16 * 16 :=
  ⟨by norm_num, c3_string_keeps_top60 21 (by norm_num)⟩

set_option maxRecDepth 100000 in
/-- C4: the spec's known vector. `Encode(21.0278, 105.8342)` is exactly
`"w7er87fpgd52"`, and decoding that string gives the pair back after
rounding each component to four decimal places. -/
theorem c4_known_vector :
    Encode (210278 / 10000) (1058342 / 10000) = "w7er87fpgd52" ∧
      round4 (Decode "w7er87fpgd52").1 = 210278 / 10000 ∧
      round4 (Decode "w7er87fpgd52").2 = 1058342 / 10000 := by
  have hm1 : mapTo32Bits (((210278 / 10000 : ℚ) - minLat) / (maxLat - minLat)) =
      2649226499 := by
    rw [mapTo32Bits]
    simp only [minLat, maxLat]
    norm_num
    rfl
  have hm2 : mapTo32Bits (((1058342 / 10000 : ℚ) - minLong) / (maxLong - minLong)) =
      3410134836 := by
    rw [mapTo32Bits]
    simp only [minLong, maxLong]
    norm_num
    rfl
  have hd : DeInterleave64Bits (Base32ToUint64 "w7er87fpgd52") =
      (2649226496, 3410134836) := by decide
  refine ⟨?_, ?_, ?_⟩
  · rw [Encode, encodeKey, hm1, hm2]
    decide
  · simp only [Decode, hd, round4, minLat, maxLat]
    norm_num
  · simp only [Decode, hd, round4, minLong, maxLong]
    norm_num

set_option maxRecDepth 100000 in
/-- C5 evaluated at the boundary corners: both encodings succeed and
produce 12-character strings, but under the wrapping float-to-uint32
conversion both corners map to the all-zero key, so `(90, 180)` decodes
to the opposite corner `(-90, -180)`, not near `(90, 180)`. -/
theorem c5_boundary_eval :
    Encode (-90) (-180) = "000000000000" ∧
      Encode 90 180 = "000000000000" ∧
      (Encode (-90) (-180)).length = 12 ∧
      (Encode 90 180).length = 12 ∧
      Decode (Encode (-90) (-180)) = (-90, -180) ∧
      Decode (Encode 90 180) = (-90, -180) := by
  have hm0 : mapTo32Bits (((-90 : ℚ) - minLat) / (maxLat - minLat)) = 0 := by
    rw [mapTo32Bits]
    simp only [minLat, maxLat]
    norm_num
  have hm1 : mapTo32Bits (((-180 : ℚ) - minLong) / (maxLong - minLong)) = 0 := by
    rw [mapTo32Bits]
    simp only [minLong, maxLong]
    norm_num
  have hm2 : mapTo32Bits (((90 : ℚ) - minLat) / (maxLat - minLat)) = 0 := by
    rw [mapTo32Bits]
    simp only [minLat, maxLat]
    norm_num
  have hm3 : mapTo32Bits (((180 : ℚ) - minLong) / (maxLong - minLong)) = 0 := by
    rw [mapTo32Bits]
    simp only [minLong, maxLong]
    norm_num
  have he1 : Encode (-90) (-180) = "000000000000" := by
    rw [Encode, encodeKey, hm0, hm1]
    decide
  have he2 : Encode 90 180 = "000000000000" := by
    rw [Encode, encodeKey, hm2, hm3]
    decide
  have hdec : Decode "000000000000" = (-90, -180) := by
    have hd0 : DeInterleave64Bits (Base32ToUint64 "000000000000") = (0, 0) := by decide
    simp only [Decode, hd0, minLat, maxLat, minLong, maxLong]
    norm_num
  refine ⟨he1, he2, ?_, ?_, ?_, ?_⟩
  · rw [he1]
    decide
  · rw [he2]
    decide
  · rw [he1, hdec]
  · rw [he2, hdec]

/-! ### Bounding box and length estimation -/

/-- C6: evaluating both bundled `BoundingBox` variants at latitude 0,
longitude 0 and radius 111.1 km. The primary definition returns the
quadruple in the order `(minLat, minLng, maxLat, maxLng)` — its second
component is the longitude minimum `-5555/5566`, not the latitude
maximum `1` required by the claimed `(minLat, maxLat, minLng, maxLng)`
order; the secondary variant returns the claimed order. -/
theorem c6_boundingBox_order_eval :
    BoundingBox 0 0 (1111 / 10) = (-1, -(5555 / 5566), 1, 5555 / 5566) ∧
      BoundingBoxVariant 0 0 (1111 / 10) = (-1, 1, -(5555 / 5566), 5555 / 5566) ∧
      ((-(5555 / 5566) : ℝ) ≠ 1) := by
  have hcos : Real.cos ((0 : ℝ) / 180 * Real.pi) = 1 := by
    rw [show (0 : ℝ) / 180 * Real.pi = 0 from by ring, Real.cos_zero]
  refine ⟨?_, ?_, by norm_num⟩
  · simp only [BoundingBox, lenOfADegreeOfLat, lenOfADegreeOfLng, hcos]
    push_cast
    norm_num [Prod.ext_iff]
  · simp only [BoundingBoxVariant, lenOfADegreeOfLat, lenOfADegreeOfLng, hcos]
    push_cast
    norm_num [Prod.ext_iff]

theorem estimateLoop_nonpos :
    ∀ fuel (r : ℚ) (p : ℕ), r ≤ 0 → estimateLoop fuel r p = none := by
  intro fuel
  induction fuel with
  | zero =>
    intro r p hr
    rw [estimateLoop, if_pos (lt_of_le_of_lt hr (by norm_num [mercatorMax]))]
  | succ n ih =>
    intro r p hr
    rw [estimateLoop, if_pos (lt_of_le_of_lt hr (by norm_num [mercatorMax]))]
    exact ih _ _ (by linarith)

/-- C7 counterexample: at the radius `-1` the doubling loop of
`EstimateLengthRequired` never reaches the loop bound (a negative
accumulator only becomes more negative), so no amount of fuel makes the
function return: on the actual Go code the call would loop forever. -/
theorem c7_claim_false :
    ¬ ∃ fuel l, EstimateLengthRequired fuel (-1) = some l := by
  rintro ⟨fuel, l, h⟩
  rw [EstimateLengthRequired, if_neg (by norm_num),
    estimateLoop_nonpos fuel (-1) 0 (by norm_num)] at h
  simp at h

theorem estimateLoop_terminates :
    ∀ n (r : ℚ) (p : ℕ), mercatorMax ≤ r * 2 ^ n →
      ∃ q, estimateLoop n r p = some q := by
  intro n
  induction n with
  | zero =>
    intro r p h
    rw [pow_zero, mul_one] at h
    exact ⟨p, by rw [estimateLoop, if_neg (not_lt.2 h)]⟩
  | succ n ih =>
    intro r p h
    by_cases hr : r < mercatorMax
    · rw [estimateLoop, if_pos hr]
      refine ih (r * 2) (p + 2) ?_
      have he : r * 2 ^ (n + 1) = r * 2 * 2 ^ n := by ring
      linarith [he ▸ h]
    · exact ⟨p, by rw [estimateLoop, if_neg hr]⟩

/-- C7 (amended): for every nonnegative radius `EstimateLengthRequired`
terminates (some fuel suffices) with a value in `[1, 12]`; the radius 0
returns 12, and any radius at or beyond the Mercator maximum returns 1.
For negative radii the loop never terminates (see the counterexample). -/
theorem c7_estimate_length (r : ℚ) (hr : 0 ≤ r) :
    ∃ fuel l, EstimateLengthRequired fuel r = some l ∧ 1 ≤ l ∧ l ≤ 12 ∧
      (r = 0 → l = 12) ∧ (mercatorMax ≤ r → l = 1) := by
  by_cases h0 : r = 0
  · subst h0
    refine ⟨0, 12, ?_, by norm_num, by norm_num, fun _ => rfl, fun hm => ?_⟩
    · rw [EstimateLengthRequired, if_pos rfl, maxLength]
    · exact absurd hm (by norm_num [mercatorMax])
  · have hrpos : 0 < r := lt_of_le_of_ne hr (Ne.symm h0)
    obtain ⟨n, hn⟩ := pow_unbounded_of_one_lt (mercatorMax / r) (by norm_num : (1:ℚ) < 2)
    have hn2 : mercatorMax ≤ r * 2 ^ n := by
      have h := (div_lt_iff₀ hrpos).1 hn
      rw [mul_comm] at h
      linarith
    obtain ⟨q, hq⟩ := estimateLoop_terminates n r 0 hn2
    have hE : EstimateLengthRequired n r =
        some (if (if q / 5 < 1 then 1 else q / 5) > maxLength then maxLength
              else if q / 5 < 1 then 1 else q / 5) := by
      rw [EstimateLengthRequired, if_neg h0, hq]
      rfl
    refine ⟨n, _, hE, ?_, ?_, fun h => absurd h h0, ?_⟩
    · simp only [maxLength]
      split_ifs <;> omega
    · simp only [maxLength]
      split_ifs <;> omega
    · intro hm
      have hq0 : estimateLoop n r 0 = some 0 := by
        cases n with
        | zero => rw [estimateLoop, if_neg (not_lt.2 hm)]
        | succ k => rw [estimateLoop, if_neg (not_lt.2 hm)]
      rw [hq0] at hq
      have : q = 0 := by
        injection hq with h
        omega
      subst this
      simp [maxLength]

/-- C7 witness: the amended statement applied at radius 0. -/
theorem c7_estimate_length_witness :
    (0:ℚ) ≤ 0 ∧
      ∃ fuel l, EstimateLengthRequired fuel 0 = some l ∧ 1 ≤ l ∧ l ≤ 12 ∧
        ((0:ℚ) = 0 → l = 12) ∧ (mercatorMax ≤ 0 → l = 1) :=
  ⟨le_refl 0, c7_estimate_length 0 (le_refl 0)⟩

/-! ### Coordinate parsing -/

theorem c8_parse_ok_iff (pf : List Char → Option ℚ) (s : String) :
    (∃ p, ParseCoordinate pf s = .ok p) ↔
      ∃ latS lngS la lo, splitOnChar ',' s.data = [latS, lngS] ∧
        pf (trimSpace latS) = some la ∧ pf (trimSpace lngS) = some lo ∧
        minLat ≤ la ∧ la ≤ maxLat ∧ minLong ≤ lo ∧ lo ≤ maxLong := by
  rcases hsp : splitOnChar ',' s.data with _ | ⟨latS, _ | ⟨lngS, _ | ⟨x, rest⟩⟩⟩
  · simp [ParseCoordinate, hsp]
  · simp [ParseCoordinate, hsp]
  · simp only [ParseCoordinate, hsp]
    constructor
    · rintro ⟨p, hp⟩
      rcases hla : pf (trimSpace latS) with _ | la
      · rw [hla] at hp
        simp at hp
      · rcases hlo : pf (trimSpace lngS) with _ | lo
        · rw [hla, hlo] at hp
          simp at hp
        · rw [hla, hlo] at hp
          simp only at hp
          split_ifs at hp with h1 h2
          all_goals
            push_neg at h1 h2
            exact ⟨latS, lngS, la, lo, rfl, hla, hlo, h1.1, h1.2, h2.1, h2.2⟩
    · rintro ⟨latS', lngS', la, lo, heq, hla, hlo, hr1, hr2, hr3, hr4⟩
      have heq1 : latS' = latS := by
        injection heq with h1 _
        exact h1.symm
      have heq2 : lngS' = lngS := by
        injection heq with _ h2
        injection h2 with h2 _
        exact h2.symm
      subst heq1
      subst heq2
      have hn1 : ¬ (la < minLat ∨ la > maxLat) := by
        push_neg
        exact ⟨hr1, hr2⟩
      have hn2 : ¬ (lo < minLong ∨ lo > maxLong) := by
        push_neg
        exact ⟨hr3, hr4⟩
      refine ⟨(la, lo), ?_⟩
      rw [hla, hlo]
      simp [hn1, hn2]
  · simp [ParseCoordinate, hsp]

theorem c8_parse_format_iff (pf : List Char → Option ℚ) (s : String) :
    ParseCoordinate pf s = .error .format ↔ (splitOnChar ',' s.data).length ≠ 2 := by
  rcases hsp : splitOnChar ',' s.data with _ | ⟨latS, _ | ⟨lngS, _ | ⟨x, rest⟩⟩⟩
  · simp [ParseCoordinate, hsp]
  · simp [ParseCoordinate, hsp]
  · simp only [ParseCoordinate, hsp]
    constructor
    · intro h
      rcases hla : pf (trimSpace latS) with _ | la
      · rw [hla] at h
        simp at h
      · rcases hlo : pf (trimSpace lngS) with _ | lo
        · rw [hla, hlo] at h
          simp at h
        · rw [hla, hlo] at h
          simp only at h
          split_ifs at h <;> simp at h
    · intro h
      simp at h
  · simp only [ParseCoordinate, hsp]
    constructor
    · intro _
      simp
    · intro _
      trivial

theorem parseDecimal_910 : parseDecimal (trimSpace ['9', '1', '.', '0']) = some 91 := by
  rw [show trimSpace ['9', '1', '.', '0'] = ['9', '1', '.', '0'] from by decide]
  simp only [parseDecimal,
    show splitSign ['9', '1', '.', '0'] = (false, ['9', '1', '.', '0']) from by decide,
    show splitOnChar '.' ['9', '1', '.', '0'] = [['9', '1'], ['0']] from by decide]
  rw [if_pos (by decide)]
  simp only [show digitsToNat ['9', '1'] = 91 from by decide,
    show digitsToNat ['0'] = 0 from by decide]
  norm_num

theorem parseDecimal_00 : parseDecimal (trimSpace [' ', '0', '.', '0']) = some 0 := by
  rw [show trimSpace [' ', '0', '.', '0'] = ['0', '.', '0'] from by decide]
  simp only [parseDecimal,
    show splitSign ['0', '.', '0'] = (false, ['0', '.', '0']) from by decide,
    show splitOnChar '.' ['0', '.', '0'] = [['0'], ['0']] from by decide]
  rw [if_pos (by decide)]
  simp only [show digitsToNat ['0'] = 0 from by decide]
  norm_num

theorem parseCoordinate_abc : ParseCoordinate parseDecimal "abc" = .error .format := by
  have hsp : splitOnChar ',' "abc".data = [['a', 'b', 'c']] := by decide
  simp [ParseCoordinate, hsp]

theorem parseCoordinate_91 :
    ParseCoordinate parseDecimal "91.0, 0.0" = .error .rangeLat := by
  have hsp : splitOnChar ',' "91.0, 0.0".data =
      [['9', '1', '.', '0'], [' ', '0', '.', '0']] := by decide
  simp only [ParseCoordinate, hsp, parseDecimal_910, parseDecimal_00]
  rw [if_pos (Or.inr (by norm_num [maxLat]))]

/-- C8: `ParseCoordinate` succeeds exactly on a well-formed in-range
comma pair, for any float parser `pf` (Go's `strconv.ParseFloat` is
standard-library code, modelled abstractly): the format error happens
exactly when splitting on commas does not give two parts, parsing stops
with an error when a trimmed part does not parse or a range is violated,
and the two concrete spec examples behave as stated (with `parseDecimal`
standing in for `strconv.ParseFloat` on plain decimals). -/
theorem c8_parse_coordinate_errors :
    (∀ (pf : List Char → Option ℚ) (s : String),
      ((∃ p, ParseCoordinate pf s = .ok p) ↔
        ∃ latS lngS la lo, splitOnChar ',' s.data = [latS, lngS] ∧
          pf (trimSpace latS) = some la ∧ pf (trimSpace lngS) = some lo ∧
          minLat ≤ la ∧ la ≤ maxLat ∧ minLong ≤ lo ∧ lo ≤ maxLong) ∧
      (ParseCoordinate pf s = .error .format ↔ (splitOnChar ',' s.data).length ≠ 2)) ∧
    ParseCoordinate parseDecimal "abc" = .error .format ∧
    ParseCoordinate parseDecimal "91.0, 0.0" = .error .rangeLat :=
  ⟨fun pf s => ⟨c8_parse_ok_iff pf s, c8_parse_format_iff pf s⟩,
    parseCoordinate_abc, parseCoordinate_91⟩

/-! ### Alphabet closure and geohash validation -/

theorem b32Chars_length : ∀ (n v : ℕ), (b32Chars v n).length = n := by
  intro n
  induction n with
  | zero => intro v; rfl
  | succ n ih =>
    intro v
    rw [b32Chars, List.length_cons, ih]

theorem alphabetChar_mem : ∀ k, k < 32 → alphabetChar k ∈ alphabet.data := by decide

theorem b32Chars_mem : ∀ (n v : ℕ), v < 2 ^ 64 → ∀ c ∈ b32Chars v n, c ∈ alphabet.data := by
  intro n
  induction n with
  | zero =>
    intro v _ c hc
    simp [b32Chars] at hc
  | succ n ih =>
    intro v hv c hc
    rw [b32Chars] at hc
    rcases List.mem_cons.1 hc with h | h
    · subst h
      exact alphabetChar_mem _ (shiftRight59_lt v hv)
    · exact ih _ (Nat.mod_lt _ (by norm_num)) c h

/-- C9: for any 64-bit key the base-32 conversion emits exactly 12
characters, all from the alphabet (every extracted 5-bit chunk is below
32, so the lookup is in bounds), and hence every `Encode` output is a
12-character string over the alphabet. -/
theorem c9_alphabet_closure (v : ℕ) (hv : v < 2 ^ 64) :
    (uint64ToBase32 v).length = 12 ∧
      (∀ c ∈ (uint64ToBase32 v).data, c ∈ alphabet.data) ∧
      ∀ lat lng : ℚ, (Encode lat lng).length = 12 ∧
        ∀ c ∈ (Encode lat lng).data, c ∈ alphabet.data := by
  refine ⟨?_, ?_, ?_⟩
  · exact b32Chars_length 12 v
  · exact b32Chars_mem 12 v hv
  · intro lat lng
    exact ⟨b32Chars_length 12 _, b32Chars_mem 12 _ (interleave32Bits_lt _ _)⟩

/-- C9 witness: the closure property at the zero key. -/
theorem c9_alphabet_closure_witness :
    (0 : ℕ) < 2 ^ 64 ∧ (uint64ToBase32 0).length = 12 :=
  ⟨by norm_num, (c9_alphabet_closure 0 (by norm_num)).1⟩

theorem strIndex_neg_iff (c : Char) : strIndex c = -1 ↔ c ∉ alphabet.data := by
  rw [strIndex]
  by_cases h : c ∈ alphabet.data
  · simp only [if_pos h]
    simp [h]
  · simp [h]

theorem parseGeohashAux_none_iff :
    ∀ (l : List Char) (i : ℕ),
      parseGeohashAux l i = none ↔ ∀ c ∈ l, c ∈ alphabet.data := by
  intro l
  induction l with
  | nil =>
    intro i
    simp [parseGeohashAux]
  | cons d rest ih =>
    intro i
    rw [parseGeohashAux]
    by_cases h : strIndex d = -1
    · rw [if_pos h]
      have hd : d ∉ alphabet.data := (strIndex_neg_iff d).1 h
      simp [hd]
    · rw [if_neg h]
      have hd : d ∈ alphabet.data := not_not.1 (fun hn => h ((strIndex_neg_iff d).2 hn))
      simp [ih (i + 1), hd]

theorem parseGeohashAux_some_iff :
    ∀ (l : List Char) (i : ℕ) (c : Char) (j : ℕ),
      parseGeohashAux l i = some (c, j) ↔
        ∃ pre suf, l = pre ++ c :: suf ∧ j = i + pre.length ∧ c ∉ alphabet.data ∧
          ∀ x ∈ pre, x ∈ alphabet.data := by
  intro l
  induction l with
  | nil =>
    intro i c j
    rw [parseGeohashAux]
    simp only [reduceCtorEq, false_iff]
    rintro ⟨pre, suf, h, -⟩
    cases pre <;> simp at h
  | cons d rest ih =>
    intro i c j
    rw [parseGeohashAux]
    by_cases h : strIndex d = -1
    · rw [if_pos h]
      have hd : d ∉ alphabet.data := (strIndex_neg_iff d).1 h
      constructor
      · intro hsome
        injection hsome with hpair
        cases hpair
        exact ⟨[], rest, rfl, by simp, hd, by simp⟩
      · rintro ⟨pre, suf, hl, hj, hc, hpre⟩
        cases pre with
        | nil =>
          simp only [List.nil_append, List.cons.injEq] at hl
          obtain ⟨rfl, rfl⟩ := hl
          simp only [List.length_nil, Nat.add_zero] at hj
          subst hj
          rfl
        | cons e pre' =>
          simp only [List.cons_append, List.cons.injEq] at hl
          obtain ⟨rfl, -⟩ := hl
          exact absurd (hpre d (by simp)) hd
    · rw [if_neg h]
      have hd : d ∈ alphabet.data := not_not.1 (fun hn => h ((strIndex_neg_iff d).2 hn))
      rw [ih (i + 1) c j]
      constructor
      · rintro ⟨pre, suf, hl, hj, hc, hpre⟩
        refine ⟨d :: pre, suf, by rw [hl]; rfl, by simp; omega, hc, ?_⟩
        intro x hx
        rcases List.mem_cons.1 hx with rfl | hx2
        · exact hd
        · exact hpre x hx2
      · rintro ⟨pre, suf, hl, hj, hc, hpre⟩
        cases pre with
        | nil =>
          simp only [List.nil_append, List.cons.injEq] at hl
          obtain ⟨rfl, -⟩ := hl
          exact absurd hd hc
        | cons e pre' =>
          simp only [List.cons_append, List.cons.injEq] at hl
          obtain ⟨rfl, hrest⟩ := hl
          refine ⟨pre', suf, hrest, ?_, hc, fun x hx => hpre x (by simp [hx])⟩
          simp only [List.length_cons] at hj
          omega

theorem decode_in_range (s : String) :
    -90 ≤ (Decode s).1 ∧ (Decode s).1 < 90 ∧
      -180 ≤ (Decode s).2 ∧ (Decode s).2 < 180 := by
  have h1 := DeInterleave64Bits_fst_lt (Base32ToUint64 s)
  have h2 := DeInterleave64Bits_snd_lt (Base32ToUint64 s)
  have hc1 : (((DeInterleave64Bits (Base32ToUint64 s)).1 : ℕ) : ℚ) < 2 ^ 32 := by
    exact_mod_cast h1
  have hc2 : (((DeInterleave64Bits (Base32ToUint64 s)).2 : ℕ) : ℚ) < 2 ^ 32 := by
    exact_mod_cast h2
  have hp1 : (0:ℚ) ≤ ((DeInterleave64Bits (Base32ToUint64 s)).1 : ℚ) := by positivity
  have hp2 : (0:ℚ) ≤ ((DeInterleave64Bits (Base32ToUint64 s)).2 : ℚ) := by positivity
  simp only [Decode, minLat, maxLat, minLong, maxLong]
  have hd1 : ((DeInterleave64Bits (Base32ToUint64 s)).1 : ℚ) / 2 ^ 32 < 1 :=
    (div_lt_one (by positivity)).2 hc1
  have hd2 : ((DeInterleave64Bits (Base32ToUint64 s)).2 : ℚ) / 2 ^ 32 < 1 :=
    (div_lt_one (by positivity)).2 hc2
  have hd3 : (0:ℚ) ≤ ((DeInterleave64Bits (Base32ToUint64 s)).1 : ℚ) / 2 ^ 32 := by
    positivity
  have hd4 : (0:ℚ) ≤ ((DeInterleave64Bits (Base32ToUint64 s)).2 : ℚ) / 2 ^ 32 := by
    positivity
  refine ⟨by nlinarith, by nlinarith, by nlinarith, by nlinarith⟩

/-- C10: `ParseGeohash` checks alphabet membership only, never length:
it accepts the empty string and exactly the strings all of whose
characters are in the alphabet, and otherwise reports the first
offending character with its index; `Base32ToUint64` accumulates one
5-bit group per character whatever the length, and `Decode` maps every
string (hence every validated string, of any length) into the valid
coordinate rectangle. -/
theorem c10_parse_geohash_no_length_check :
    ParseGeohash "" = none ∧
      (∀ s : String, ParseGeohash s = none ↔ ∀ c ∈ s.data, c ∈ alphabet.data) ∧
      (∀ (s : String) (c : Char) (i : ℕ),
        ParseGeohash s = some (c, i) ↔
          ∃ pre suf, s.data = pre ++ c :: suf ∧ i = pre.length ∧
            c ∉ alphabet.data ∧ ∀ x ∈ pre, x ∈ alphabet.data) ∧
      (∀ (cs : List Char) (c : Char),
        (cs ++ [c]).foldl b32Step 0 = b32Step (cs.foldl b32Step 0) c) ∧
      ∀ s : String, -90 ≤ (Decode s).1 ∧ (Decode s).1 < 90 ∧
        -180 ≤ (Decode s).2 ∧ (Decode s).2 < 180 := by
  refine ⟨rfl, ?_, ?_, ?_, decode_in_range⟩
  · intro s
    exact parseGeohashAux_none_iff s.data 0
  · intro s c i
    rw [ParseGeohash, parseGeohashAux_some_iff s.data 0 c i]
    simp only [Nat.zero_add]
  · intro cs c
    rw [List.foldl_append, List.foldl_cons, List.foldl_nil]

end Geohash
